import Mathlib

/-!
Verification of the hdfd `netsync` block/transaction synchronization manager
against its natural-language specification.

The repository sources provide the `netsync` package interface
(`netsync/interface.go`: the `Config` struct and the package logger), the
`database` package logger, and the `rpctest` harness helper
(`hdfdExecutablePath`).  The sync-manager core (request tracker, orphan pool,
event handlers) is declared by the spec but its implementation file is not
among the sources, so those components are modelled from the spec (each such
definition carries a doc comment starting `Modelled from the spec:`).
Machine integers are modelled as `Nat`; Go maps keyed by hash are modelled as
association lists; Go `nil` interface values are modelled as `Option`.
-/

namespace Hdfd

/-- Block or transaction hashes (`chainhash.Hash`), abstracted to `Nat`. -/
abbrev Hash := Nat

/-- Peer identifiers, abstracted to `Nat`. -/
abbrev PeerID := Nat

/-- Timestamps, abstracted to `Nat` ticks. -/
abbrev Time := Nat

/-- Inventory kind of a tracked request: block or transaction. -/
inductive InvKind where
  | block
  | tx
deriving DecidableEq, Repr

/-- A block message: its own hash and its parent (previous-block) hash. -/
structure BlockMsg where
  hash : Hash
  parent : Hash
deriving DecidableEq, Repr

/-- A transaction message, identified by its hash. -/
structure TxMsg where
  hash : Hash
deriving DecidableEq, Repr

/-! ### Global request tracker

Modelled from the spec: the sync-manager implementation file is not among the
sources; §3 "Global Request Tracker" and §4.2 give
`requestedBlocks: map<BlockHash, PeerID>`, `requestedTxns: map<TxHash, PeerID>`
with operations `TryReserve`, `Release`, `ReleaseAll`.  The maps are modelled
as association lists from hash to owning peer. -/

/-- One side (blocks or txns) of the tracker: hash ↦ owning peer. -/
abbrev ReqMap := List (Hash × PeerID)

/-- Owner lookup in one side of the tracker. -/
def reqOwner (l : ReqMap) (h : Hash) : Option PeerID :=
  (l.find? (fun e => e.1 == h)).map (fun e => e.2)

/-- Modelled from the spec: `TryReserve` on one map — succeeds only if `hash`
is not already reserved by any peer (§4.2). -/
def reqTryReserve (p : PeerID) (h : Hash) (l : ReqMap) : Bool × ReqMap :=
  match reqOwner l h with
  | some _ => (false, l)
  | none => (true, (h, p) :: l)

/-- Modelled from the spec: `Release` on one map — removes the reservation if
owned by `peerID`, no-op otherwise (§4.2). -/
def reqRelease (p : PeerID) (h : Hash) (l : ReqMap) : ReqMap :=
  l.filter (fun e => !(e.1 == h && e.2 == p))

/-- Modelled from the spec: `ReleaseAll(peerID)` on one map — drops every
reservation owned by `peerID` (§4.2, used on disconnect/stall). -/
def reqReleaseAll (p : PeerID) (l : ReqMap) : ReqMap :=
  l.filter (fun e => !(e.2 == p))

/-- The global request tracker: separate maps for blocks and transactions. -/
structure RequestTracker where
  requestedBlocks : ReqMap
  requestedTxns : ReqMap
deriving DecidableEq, Repr

/-- The empty tracker. -/
def RequestTracker.empty : RequestTracker := ⟨[], []⟩

/-- `TryReserve(peerID, hash, kind)` on the tracker. -/
def RequestTracker.tryReserve (t : RequestTracker) (p : PeerID) (h : Hash)
    (k : InvKind) : Bool × RequestTracker :=
  match k with
  | .block =>
    let r := reqTryReserve p h t.requestedBlocks
    (r.1, { t with requestedBlocks := r.2 })
  | .tx =>
    let r := reqTryReserve p h t.requestedTxns
    (r.1, { t with requestedTxns := r.2 })

/-- `Release(peerID, hash, kind)` on the tracker. -/
def RequestTracker.release (t : RequestTracker) (p : PeerID) (h : Hash)
    (k : InvKind) : RequestTracker :=
  match k with
  | .block => { t with requestedBlocks := reqRelease p h t.requestedBlocks }
  | .tx => { t with requestedTxns := reqRelease p h t.requestedTxns }

/-- `ReleaseAll(peerID)` on the tracker. -/
def RequestTracker.releaseAll (t : RequestTracker) (p : PeerID) :
    RequestTracker :=
  { requestedBlocks := reqReleaseAll p t.requestedBlocks
    requestedTxns := reqReleaseAll p t.requestedTxns }

/-- Owner of an outstanding request for `h` of kind `k`, if any. -/
def RequestTracker.owner (t : RequestTracker) (h : Hash) (k : InvKind) :
    Option PeerID :=
  match k with
  | .block => reqOwner t.requestedBlocks h
  | .tx => reqOwner t.requestedTxns h

/-- At most one peer is credited with any given hash: any two entries with the
same hash name the same peer. -/
def AtMostOneOwner (l : ReqMap) : Prop :=
  ∀ e ∈ l, ∀ e' ∈ l, e.1 = e'.1 → e.2 = e'.2

instance (l : ReqMap) : Decidable (AtMostOneOwner l) := by
  unfold AtMostOneOwner; infer_instance

/-- The tracker invariant: at most one owner per hash, on both maps. -/
def TrackerInv (t : RequestTracker) : Prop :=
  AtMostOneOwner t.requestedBlocks ∧ AtMostOneOwner t.requestedTxns

instance (t : RequestTracker) : Decidable (TrackerInv t) := by
  unfold TrackerInv; infer_instance

/-! ### Chain and mempool oracles

Modelled from the spec: the oracles are external collaborators (§2, §6);
only the contract surface used by the sync manager is modelled.
`ChainOracle`: `ProcessBlock -> {Accepted*, Orphan, Rejected, Duplicate}`,
`HaveBlock`, `BestSnapshot`; a block is accepted exactly when its parent is
known (consensus-rule content is out of scope §1), at height parent+1, and
the best tip follows the greatest height. -/

/-- State of the chain oracle: accepted blocks with their heights, and the
best-tip snapshot. -/
structure ChainOracle where
  blocks : List (Hash × Nat)
  tipHash : Hash
  tipHeight : Nat
deriving DecidableEq, Repr

/-- Result alternatives of `ChainOracle.ProcessBlock` (§6). -/
inductive ProcessBlockResult where
  | accepted
  | orphan
  | duplicate
deriving DecidableEq, Repr

/-- `HaveBlock(hash)`. -/
def ChainOracle.haveBlock (o : ChainOracle) (h : Hash) : Bool :=
  (o.blocks.find? (fun e => e.1 == h)).isSome

/-- Height of a known block. -/
def ChainOracle.heightOf (o : ChainOracle) (h : Hash) : Option Nat :=
  (o.blocks.find? (fun e => e.1 == h)).map (fun e => e.2)

/-- Modelled from the spec: `ProcessBlock` — duplicate if already known,
orphan if the parent is unknown, otherwise accepted at the parent's height
plus one, advancing the best tip when the new height is strictly greater. -/
def ChainOracle.processBlock (o : ChainOracle) (b : BlockMsg) :
    ProcessBlockResult × ChainOracle :=
  if o.haveBlock b.hash then (.duplicate, o)
  else
    match o.heightOf b.parent with
    | none => (.orphan, o)
    | some hp =>
      let hNew := hp + 1
      (.accepted,
        { blocks := (b.hash, hNew) :: o.blocks
          tipHash := if o.tipHeight < hNew then b.hash else o.tipHash
          tipHeight := max o.tipHeight hNew })

/-- An oracle knowing only the genesis block `g` at height 0. -/
def ChainOracle.genesis (g : Hash) : ChainOracle :=
  ⟨[(g, 0)], g, 0⟩

/-- State of the mempool oracle: hashes of accepted transactions.
Modelled from the spec: `ProcessTransaction`, `HaveTransaction` (§6);
admission policy is out of scope (§1), so every unknown transaction is
accepted. -/
structure MempoolOracle where
  txs : List Hash
deriving DecidableEq, Repr

/-- `HaveTransaction(hash)`. -/
def MempoolOracle.haveTransaction (m : MempoolOracle) (h : Hash) : Bool :=
  m.txs.contains h

/-- Modelled from the spec: `ProcessTransaction` — accepts any transaction
not already present. -/
def MempoolOracle.processTransaction (m : MempoolOracle) (t : TxMsg) :
    MempoolOracle :=
  if m.haveTransaction t.hash then m else { txs := t.hash :: m.txs }

/-! ### Orphan pool

Modelled from the spec: §3 "Orphan Block Entry" and §4.3 — entries
`(block, receivedFrom, expiry)` in insertion order (head oldest), capacity
bounded with oldest-first eviction, `Add`, `ResolveChildrenOf`, `Expire`;
a full pool with capacity zero refuses the new orphan (§7 backpressure). -/

/-- One orphan-pool entry. -/
structure OrphanEntry where
  block : BlockMsg
  receivedFrom : PeerID
  expiry : Time
deriving DecidableEq, Repr

/-- The orphan pool: entries in insertion order, oldest first. -/
structure OrphanPool where
  entries : List OrphanEntry
deriving DecidableEq, Repr

/-- The empty orphan pool. -/
def OrphanPool.empty : OrphanPool := ⟨[]⟩

/-- Whether the pool already holds an orphan with this block hash. -/
def OrphanPool.containsHash (pool : OrphanPool) (h : Hash) : Bool :=
  pool.entries.any (fun e => e.block.hash == h)

/-- Modelled from the spec: `Add(block, fromPeer) -> evicted` — duplicates
are not re-inserted; at capacity the oldest entry is evicted; capacity zero
refuses the insertion. -/
def OrphanPool.add (cap : Nat) (b : BlockMsg) (fromPeer : PeerID)
    (expiry : Time) (pool : OrphanPool) : Option Hash × OrphanPool :=
  if pool.containsHash b.hash then (none, pool)
  else if cap = 0 then (none, pool)
  else if pool.entries.length < cap then
    (none, ⟨pool.entries ++ [⟨b, fromPeer, expiry⟩]⟩)
  else
    let dropCount := pool.entries.length + 1 - cap
    ((pool.entries.head?).map (fun e => e.block.hash),
      ⟨pool.entries.drop dropCount ++ [⟨b, fromPeer, expiry⟩]⟩)

/-- Modelled from the spec: `ResolveChildrenOf(parentHash)` — removes and
returns, in insertion order, every orphan whose parent is `parentHash`. -/
def OrphanPool.resolveChildrenOf (parent : Hash) (pool : OrphanPool) :
    List OrphanEntry × OrphanPool :=
  (pool.entries.filter (fun e => e.block.parent == parent),
    ⟨pool.entries.filter (fun e => !(e.block.parent == parent))⟩)

/-- Modelled from the spec: `Expire(now)` — evicts every entry whose expiry
has passed. -/
def OrphanPool.expire (now : Time) (pool : OrphanPool) :
    List Hash × OrphanPool :=
  ((pool.entries.filter (fun e => e.expiry ≤ now)).map (fun e => e.block.hash),
    ⟨pool.entries.filter (fun e => !(e.expiry ≤ now : Bool))⟩)

/-- The orphan-pool invariant: at most `cap` entries, and no two entries for
the same block hash. -/
def OrphanInv (cap : Nat) (pool : OrphanPool) : Prop :=
  pool.entries.length ≤ cap ∧
    (pool.entries.map (fun e => e.block.hash)).Nodup

instance (cap : Nat) (pool : OrphanPool) : Decidable (OrphanInv cap pool) := by
  unfold OrphanInv; infer_instance

/-! ### Sync manager

Modelled from the spec: §3 "PeerSyncState"/"Sync Peer", §4.1 event handlers,
§6 configuration inputs.  The manager is a pure step function
`(config, now, event, state) → (state, commands)`; peers are kept in
connection order (earliest first) so that sync-peer selection can tie-break
by connection order. -/

/-- Per-peer state owned by the sync manager (§3).  `lastRequestTime` is the
time the oldest outstanding request batch was issued, `none` when a delivery
has cleared it; it drives the stall check. -/
structure PeerSyncState where
  id : PeerID
  syncCandidate : Bool
  height : Nat
  lastRequestTime : Option Time
deriving DecidableEq, Repr

/-- Modelled from the spec: configuration inputs of the core sync logic
(§6) — max peers considered for selection, orphan-pool capacity and expiry,
per-peer pipeline depth, stall-check interval and threshold. -/
structure SyncConfig where
  maxPeers : Nat
  orphanCapacity : Nat
  orphanExpiry : Time
  pipelineDepth : Nat
  stallInterval : Time
  stallThreshold : Time
deriving DecidableEq, Repr

/-- Outbound commands the manager issues (§6). -/
inductive Command where
  | requestHeaders (p : PeerID) (locator : Hash)
  | requestData (p : PeerID) (k : InvKind) (h : Hash)
  | announce (h : Hash)
deriving DecidableEq, Repr

/-- Full state of the sync manager. -/
structure ManagerState where
  peers : List PeerSyncState
  syncPeer : Option PeerID
  tracker : RequestTracker
  orphans : OrphanPool
  oracle : ChainOracle
  mempool : MempoolOracle
deriving DecidableEq, Repr

/-- Inbound events (§6). -/
inductive Event where
  | peerConnected (p : PeerID) (candidate : Bool) (height : Nat)
  | peerDisconnected (p : PeerID)
  | invReceived (p : PeerID) (items : List (InvKind × Hash))
  | blockReceived (p : PeerID) (b : BlockMsg)
  | txReceived (p : PeerID) (t : TxMsg)
  | stallTick
deriving DecidableEq, Repr

/-- Keep the better of the incumbent best candidate and the next one: a
strictly greater height wins, ties keep the incumbent (the
earlier-connected peer). -/
def selBetter (best : Option PeerSyncState) (ps : PeerSyncState) :
    Option PeerSyncState :=
  match best with
  | none => some ps
  | some b => if b.height < ps.height then some ps else some b

/-- Modelled from the spec: sync-peer selection (§4.1) — among the first
`maxPeers` peers, the candidates advertising a height strictly greater than
the local best; the greatest height wins, ties broken by earliest connection
order (the peer list is in connection order and the fold keeps the earlier
peer on ties). -/
def selectSyncPeer (cfg : SyncConfig) (o : ChainOracle)
    (peers : List PeerSyncState) : Option PeerSyncState :=
  let cands := (peers.take cfg.maxPeers).filter
    (fun ps => ps.syncCandidate && decide (o.tipHeight < ps.height))
  cands.foldl selBetter none

/-- Mark the moment a request batch was issued to peer `q`. -/
def markRequested (q : PeerID) (now : Time) (peers : List PeerSyncState) :
    List PeerSyncState :=
  peers.map (fun ps =>
    if ps.id == q then { ps with lastRequestTime := some now } else ps)

/-- Run sync-peer selection and, when a peer is chosen, issue the initial
headers request rooted at the local best tip (§4.1). -/
def startSync (cfg : SyncConfig) (now : Time) (o : ChainOracle)
    (peers : List PeerSyncState) :
    Option PeerID × List PeerSyncState × List Command :=
  match selectSyncPeer cfg o peers with
  | none => (none, peers, [])
  | some q =>
    (some q.id, markRequested q.id now peers,
      [Command.requestHeaders q.id o.tipHash])

/-- Feed a list of orphan entries to the oracle in order, accumulating the
blocks that were accepted. -/
def foldChildren (children : List OrphanEntry) (o : ChainOracle)
    (acc0 : List BlockMsg) : ChainOracle × List BlockMsg :=
  children.foldl
    (fun (acc : ChainOracle × List BlockMsg) e =>
      let pr := acc.1.processBlock e.block
      match pr.1 with
      | .accepted => (pr.2, acc.2 ++ [e.block])
      | _ => (pr.2, acc.2))
    (o, acc0)

/-- One pass of orphan promotion: feed every orphan parented on `h` to the
oracle, in insertion order, returning the oracle, the blocks that were
accepted, and the shrunk pool. -/
def promoteStep (h : Hash) (o : ChainOracle) (pool : OrphanPool) :
    ChainOracle × List BlockMsg × OrphanPool :=
  let r := pool.resolveChildrenOf h
  let step := foldChildren r.1 o []
  (step.1, step.2, r.2)

/-- Modelled from the spec: recursive orphan resolution (§4.1, §4.3) — after
a block is accepted, orphans parented on it are promoted into the oracle,
recursively promoting any orphans chained off them; promotion is
breadth-first over the queue of newly-accepted hashes, so parents always
precede children in the promoted list.  `fuel` bounds the recursion; any
fuel beyond the pool size is enough. -/
def promoteOrphans (fuel : Nat) (queue : List Hash) (o : ChainOracle)
    (pool : OrphanPool) : ChainOracle × List BlockMsg × OrphanPool :=
  match fuel, queue with
  | 0, _ => (o, [], pool)
  | _ + 1, [] => (o, [], pool)
  | fuel + 1, h :: rest =>
    let s := promoteStep h o pool
    let r := promoteOrphans fuel (rest ++ s.2.1.map (fun b => b.hash))
      s.1 s.2.2
    (r.1, s.2.1 ++ r.2.1, r.2.2)

/-- A promotion list is in parent-before-child order relative to a starting
oracle: each promoted block's parent is either already known to the oracle or
the hash of an earlier entry of the list. -/
def ParentBeforeChild (o : ChainOracle) (L : List BlockMsg) : Prop :=
  ∀ i : Fin L.length, o.haveBlock (L.get i).parent = true ∨
    ∃ j : Fin L.length, j.val < i.val ∧ (L.get j).hash = (L.get i).parent

instance (o : ChainOracle) (L : List BlockMsg) :
    Decidable (ParentBeforeChild o L) := by
  unfold ParentBeforeChild; infer_instance

/-- Whether peer `p` is currently a sync candidate. -/
def isCandidate (peers : List PeerSyncState) (p : PeerID) : Bool :=
  peers.any (fun ps => ps.id == p && ps.syncCandidate)

/-- Record a delivery from peer `p`: its pending-request timer is cleared. -/
def markDelivered (p : PeerID) (peers : List PeerSyncState) :
    List PeerSyncState :=
  peers.map (fun ps =>
    if ps.id == p then { ps with lastRequestTime := none } else ps)

/-- Modelled from the spec: `PeerConnected` (§4.1) — record the new
`PeerSyncState`; when no sync peer is active, attempt selection. -/
def handlePeerConnected (cfg : SyncConfig) (now : Time) (p : PeerID)
    (cand : Bool) (height : Nat) (s : ManagerState) :
    ManagerState × List Command :=
  let peers1 := s.peers ++ [⟨p, cand, height, none⟩]
  match s.syncPeer with
  | some _ => ({ s with peers := peers1 }, [])
  | none =>
    let r := startSync cfg now s.oracle peers1
    ({ s with peers := r.2.1, syncPeer := r.1 }, r.2.2)

/-- Modelled from the spec: `PeerDisconnected` (§4.1) — release every tracker
entry the peer held, drop its `PeerSyncState`, and when it was the sync peer,
clear it and re-run selection against the remaining candidates. -/
def handlePeerDisconnected (cfg : SyncConfig) (now : Time) (p : PeerID)
    (s : ManagerState) : ManagerState × List Command :=
  let tracker1 := s.tracker.releaseAll p
  let peers1 := s.peers.filter (fun ps => !(ps.id == p))
  if s.syncPeer == some p then
    let r := startSync cfg now s.oracle peers1
    ({ s with peers := r.2.1, syncPeer := r.1, tracker := tracker1 }, r.2.2)
  else
    ({ s with peers := peers1, tracker := tracker1 }, [])

/-- Modelled from the spec: `InvReceived` (§4.1) — for each announced item
not already known to the oracles and not already in flight, reserve it in
the tracker under the announcing peer and request it; announcements from
non-candidates are ignored. -/
def handleInvReceived (p : PeerID) (items : List (InvKind × Hash))
    (s : ManagerState) : ManagerState × List Command :=
  if !(isCandidate s.peers p) then (s, [])
  else
    let r := items.foldl
      (fun (acc : RequestTracker × List Command) item =>
        let known :=
          match item.1 with
          | .block => s.oracle.haveBlock item.2
          | .tx => s.mempool.haveTransaction item.2
        if known then acc
        else
          let t := acc.1.tryReserve p item.2 item.1
          if t.1 then (t.2, acc.2 ++ [Command.requestData p item.1 item.2])
          else acc)
      (s.tracker, [])
    ({ s with tracker := r.1 }, r.2)

/-- Modelled from the spec: `BlockReceived` (§4.1) — the tracker slot is
released regardless of outcome; a block the oracle already has is discarded
as a duplicate; an accepted block triggers recursive orphan promotion and
announcement of every newly-connected block; an orphan enters the pool and
its missing ancestor is requested (through `TryReserve`) from the sender. -/
def handleBlockReceived (cfg : SyncConfig) (now : Time) (p : PeerID)
    (b : BlockMsg) (s : ManagerState) : ManagerState × List Command :=
  let tracker1 := s.tracker.release p b.hash .block
  let peers1 := markDelivered p s.peers
  if s.oracle.haveBlock b.hash then
    ({ s with tracker := tracker1, peers := peers1 }, [])
  else
    let pr := s.oracle.processBlock b
    match pr.1 with
    | .duplicate =>
      ({ s with tracker := tracker1, peers := peers1 }, [])
    | .orphan =>
      let a := s.orphans.add cfg.orphanCapacity b p (now + cfg.orphanExpiry)
      let t := tracker1.tryReserve p b.parent .block
      ({ s with tracker := t.2, peers := peers1, orphans := a.2 },
        if t.1 then [Command.requestData p .block b.parent] else [])
    | .accepted =>
      let r := promoteOrphans (s.orphans.entries.length + 1) [b.hash]
        pr.2 s.orphans
      ({ s with
          tracker := tracker1
          peers := peers1
          oracle := r.1
          orphans := r.2.2 },
        Command.announce b.hash :: r.2.1.map (fun blk => Command.announce blk.hash))

/-- Modelled from the spec: `TxReceived` (§4.1) — release the tracker slot;
a transaction the mempool already has is discarded; otherwise it is processed
and announced. -/
def handleTxReceived (p : PeerID) (t : TxMsg) (s : ManagerState) :
    ManagerState × List Command :=
  let tracker1 := s.tracker.release p t.hash .tx
  if s.mempool.haveTransaction t.hash then
    ({ s with tracker := tracker1 }, [])
  else
    ({ s with
        tracker := tracker1
        mempool := s.mempool.processTransaction t },
      [Command.announce t.hash])

/-- Whether the sync peer `p` has an outstanding request older than the
stall threshold at time `now`. -/
def stalled (cfg : SyncConfig) (now : Time) (p : PeerID)
    (peers : List PeerSyncState) : Bool :=
  peers.any (fun ps =>
    ps.id == p &&
      match ps.lastRequestTime with
      | some t0 => decide (t0 + cfg.stallThreshold ≤ now)
      | none => false)

/-- Mark a stalled peer as no longer a sync candidate (treated as equivalent
to disconnection for sync-peer purposes, §4.1). -/
def stallMark (p : PeerID) (peers : List PeerSyncState) :
    List PeerSyncState :=
  peers.map (fun ps =>
    if ps.id == p then
      { ps with syncCandidate := false, lastRequestTime := none }
    else ps)

/-- Modelled from the spec: the periodic stall check (§4.1) — when the sync
peer has outstanding requests older than the threshold with no delivery, its
tracker entries are cleared, it stops being a sync candidate, and selection
re-runs among the remaining candidates. -/
def handleStallTick (cfg : SyncConfig) (now : Time) (s : ManagerState) :
    ManagerState × List Command :=
  match s.syncPeer with
  | none => (s, [])
  | some p =>
    if stalled cfg now p s.peers then
      let tracker1 := s.tracker.releaseAll p
      let peers1 := stallMark p s.peers
      let r := startSync cfg now s.oracle peers1
      ({ s with peers := r.2.1, syncPeer := r.1, tracker := tracker1 },
        r.2.2)
    else (s, [])

/-- Modelled from the spec: the single serialized event processor (§4.1) —
all handlers dispatched from one step function. -/
def handleEvent (cfg : SyncConfig) (now : Time) (e : Event)
    (s : ManagerState) : ManagerState × List Command :=
  match e with
  | .peerConnected p cand height => handlePeerConnected cfg now p cand height s
  | .peerDisconnected p => handlePeerDisconnected cfg now p s
  | .invReceived p items => handleInvReceived p items s
  | .blockReceived p b => handleBlockReceived cfg now p b s
  | .txReceived p t => handleTxReceived p t s
  | .stallTick => handleStallTick cfg now s

/-! ### `netsync/interface.go` — the `Config` struct (from source)

The embedding abstracts each referenced external type as an opaque-looking
wrapper structure; what matters for the configuration claims is which fields
the struct declares. -/

/-- Stand-in for `PeerNotifier` (interface value). -/
structure PeerNotifierRef where
  ref : Nat
deriving DecidableEq, Repr

/-- Stand-in for `*blockchain.BlockChain`. -/
structure BlockChainRef where
  ref : Nat
deriving DecidableEq, Repr

/-- Stand-in for `*mempool.TxPool`. -/
structure TxPoolRef where
  ref : Nat
deriving DecidableEq, Repr

/-- Stand-in for `*chaincfg.Params`. -/
structure ChainParamsRef where
  ref : Nat
deriving DecidableEq, Repr

/-- Stand-in for `*mempool.FeeEstimator`. -/
structure FeeEstimatorRef where
  ref : Nat
deriving DecidableEq, Repr

/-- The `netsync.Config` struct exactly as declared in
`netsync/interface.go` (fields in declaration order): `PeerNotifier`,
`Chain`, `TxMemPool`, `ChainParams`, `DisableCheckpoints`, `MaxPeers`,
`FeeEstimator`. -/
structure Config where
  peerNotifier : PeerNotifierRef
  chain : BlockChainRef
  txMemPool : TxPoolRef
  chainParams : ChainParamsRef
  disableCheckpoints : Bool
  maxPeers : Int
  feeEstimator : FeeEstimatorRef
deriving DecidableEq, Repr

/-- The Go field names of `netsync.Config`, in declaration order, transcribed
from `netsync/interface.go`. -/
def configFieldNames : List String :=
  ["PeerNotifier", "Chain", "TxMemPool", "ChainParams",
    "DisableCheckpoints", "MaxPeers", "FeeEstimator"]

/-- The tuning parameters the spec (§6) lists as configuration inputs of the
core sync logic, under canonical Go-style field names.  This definition
follows the spec's words, for comparison with `configFieldNames` from the
source. -/
def specClaimedTuningFields : List String :=
  ["MaxPeers", "OrphanCapacity", "OrphanExpiry",
    "PipelineDepth", "StallCheckInterval", "StallThreshold"]

/-! ### Package loggers (from source)

`netsync` (in `interface.go`'s companion log file) declares
`var log hdflog.Logger` with **no** `init` function, while `database/log.go`
declares the same variable together with `func init() { DisableLog() }`.
A Go interface variable without an initializer holds the nil interface,
modelled as `none`. -/

/-- A `hdflog.Logger` value: the package-level `hdflog.Disabled` logger or a
caller-supplied one. -/
inductive GoLogger where
  | disabled
  | custom (id : Nat)
deriving DecidableEq, Repr

/-- The `netsync` package's `log` variable at package initialization: no
`init` function runs, so it keeps the zero value of an interface type — the
nil interface. -/
def netsyncLogStart : Option GoLogger := none

/-- The `database` package's `log` variable at package initialization: its
`init` function calls `DisableLog`, so it starts as `hdflog.Disabled`. -/
def databaseLogStart : Option GoLogger := some .disabled

/-- `netsync.DisableLog`: sets the package logger to `hdflog.Disabled`. -/
def netsyncDisableLog (_ : Option GoLogger) : Option GoLogger :=
  some .disabled

/-- `netsync.UseLogger`: sets the package logger to the supplied logger. -/
def netsyncUseLogger (logger : GoLogger) (_ : Option GoLogger) :
    Option GoLogger :=
  some logger

/-- A logging call through the package `log` variable: dereferencing the nil
interface is a runtime panic, modelled as `Except.error`. -/
def netsyncLogCall (s : Option GoLogger) : Except Unit GoLogger :=
  match s with
  | none => .error ()
  | some l => .ok l

/-! ### `integration/rpctest` — `hdfdExecutablePath` (from source)

The function is embedded as a pure state transformer over the
`executablePath` package variable, with the external world (the result of
`baseDir()`, `runtime.GOOS`, and the outcome of `go build`) supplied as an
environment.  The third component of the result records whether the build
command was run. -/

/-- The mutable package state guarded by `compileMtx`: the cached
`executablePath`, empty until hdfd is compiled. -/
structure RpctestState where
  executablePath : String
deriving DecidableEq, Repr

/-- The initial package state: `executablePath` is the empty string. -/
def rpctestInit : RpctestState := ⟨""⟩

/-- The external world observed by one call of `hdfdExecutablePath`. -/
structure BuildEnv where
  baseDir : Except String String
  goosWindows : Bool
  buildErr : Option String
deriving Repr

/-- `hdfdExecutablePath` from `integration/rpctest`: returns the cached path
when `executablePath` is non-empty; otherwise resolves the base directory,
builds hdfd to `<testDir>/hdfd` (plus `.exe` on Windows), caches the output
path on success, and propagates errors.  The `Bool` reports whether the
build command ran. -/
def hdfdExecutablePath (env : BuildEnv) (s : RpctestState) :
    Except String String × RpctestState × Bool :=
  if s.executablePath.length ≠ 0 then (.ok s.executablePath, s, false)
  else
    match env.baseDir with
    | .error e => (.error e, s, false)
    | .ok testDir =>
      let outputPath :=
        testDir ++ "/hdfd" ++ (if env.goosWindows then ".exe" else "")
      match env.buildErr with
      | some e => (.error ("Failed to build hdfd: " ++ e), s, true)
      | none => (.ok outputPath, ⟨outputPath⟩, true)

/-! ### Concrete scenario states used by witnesses -/

/-- An example configuration. -/
def exCfg : SyncConfig := ⟨8, 5, 100, 10, 30, 60⟩

/-- An example tracker: blocks 5 and 6 in flight from peers 1 and 2,
transaction 9 in flight from peer 1. -/
def exTracker : RequestTracker := ⟨[(5, 1), (6, 2)], [(9, 1)]⟩

/-- Two example peers: peer 1 (the sync peer) has a request outstanding since
time 0; peer 2 is an idle candidate at height 8. -/
def exPeers : List PeerSyncState :=
  [⟨1, true, 10, some 0⟩, ⟨2, true, 8, none⟩]

/-- An example manager state built from the pieces above. -/
def exState : ManagerState :=
  { peers := exPeers
    syncPeer := some 1
    tracker := exTracker
    orphans := OrphanPool.empty
    oracle := ChainOracle.genesis 0
    mempool := ⟨[4]⟩ }

/-- The orphan-chain scenario blocks: B1 extends genesis, B2 extends B1,
B3 extends B2. -/
def c2B1 : BlockMsg := ⟨1, 0⟩

/-- Second block of the orphan-chain scenario. -/
def c2B2 : BlockMsg := ⟨2, 1⟩

/-- Third block of the orphan-chain scenario. -/
def c2B3 : BlockMsg := ⟨3, 2⟩

/-- Initial state of the orphan-chain scenario: one sync peer, genesis-only
oracle, everything else empty. -/
def c2State0 : ManagerState :=
  { peers := [⟨1, true, 10, none⟩]
    syncPeer := some 1
    tracker := RequestTracker.empty
    orphans := OrphanPool.empty
    oracle := ChainOracle.genesis 0
    mempool := ⟨[]⟩ }

/-- Scenario state after B2 arrives (orphaned: its parent B1 is unknown). -/
def c2AfterB2 : ManagerState :=
  (handleEvent exCfg 5 (.blockReceived 1 c2B2) c2State0).1

/-- Scenario state after B3 arrives (orphaned: its parent B2 is unknown). -/
def c2AfterB3 : ManagerState :=
  (handleEvent exCfg 6 (.blockReceived 1 c2B3) c2AfterB2).1

/-- Scenario outcome after the missing ancestor B1 finally arrives. -/
def c2Final : ManagerState × List Command :=
  handleEvent exCfg 7 (.blockReceived 1 c2B1) c2AfterB3

/-! ## Theorems -/

/-! ### Request-tracker lemmas -/

theorem atMostOneOwner_filter (q : Hash × PeerID → Bool) {l : ReqMap}
    (hl : AtMostOneOwner l) : AtMostOneOwner (l.filter q) := by
  intro e he e' he' hfst
  exact hl e (List.mem_of_mem_filter he) e' (List.mem_of_mem_filter he') hfst

theorem reqOwner_eq_none_iff {l : ReqMap} {h : Hash} :
    reqOwner l h = none ↔ ∀ e ∈ l, e.1 ≠ h := by
  unfold reqOwner
  rw [Option.map_eq_none', List.find?_eq_none]
  constructor
  · intro hnone e he
    have := hnone e he
    simpa using this
  · intro hall e he
    simpa using hall e he

theorem atMostOneOwner_tryReserve {l : ReqMap} (p : PeerID) (h : Hash)
    (hl : AtMostOneOwner l) : AtMostOneOwner (reqTryReserve p h l).2 := by
  unfold reqTryReserve
  cases hcase : reqOwner l h with
  | some q => simpa using hl
  | none =>
    simp only
    intro e he e' he' hfst
    have hnot := reqOwner_eq_none_iff.mp hcase
    rcases List.mem_cons.mp he with he1 | he1
    · rcases List.mem_cons.mp he' with he2 | he2
      · rw [he1, he2]
      · exact absurd (he1 ▸ hfst : (h, p).1 = e'.1).symm (hnot e' he2)
    · rcases List.mem_cons.mp he' with he2 | he2
      · exact absurd (he2 ▸ hfst : e.1 = (h, p).1) (hnot e he1)
      · exact hl e he1 e' he2 hfst

theorem trackerInv_tryReserve (t : RequestTracker) (p : PeerID) (h : Hash)
    (k : InvKind) (ht : TrackerInv t) :
    TrackerInv (t.tryReserve p h k).2 := by
  cases k with
  | block =>
    exact ⟨atMostOneOwner_tryReserve p h ht.1, ht.2⟩
  | tx =>
    exact ⟨ht.1, atMostOneOwner_tryReserve p h ht.2⟩

theorem trackerInv_release (t : RequestTracker) (p : PeerID) (h : Hash)
    (k : InvKind) (ht : TrackerInv t) : TrackerInv (t.release p h k) := by
  cases k with
  | block => exact ⟨atMostOneOwner_filter _ ht.1, ht.2⟩
  | tx => exact ⟨ht.1, atMostOneOwner_filter _ ht.2⟩

theorem trackerInv_releaseAll (t : RequestTracker) (p : PeerID)
    (ht : TrackerInv t) : TrackerInv (t.releaseAll p) :=
  ⟨atMostOneOwner_filter _ ht.1, atMostOneOwner_filter _ ht.2⟩

theorem reqRelease_idem (p : PeerID) (h : Hash) (l : ReqMap) :
    reqRelease p h (reqRelease p h l) = reqRelease p h l := by
  unfold reqRelease
  rw [List.filter_filter]
  simp [Bool.and_self]

theorem reqRelease_stale {l : ReqMap} {p q : PeerID} {h : Hash}
    (hl : AtMostOneOwner l) (hq : reqOwner l h = some q) (hne : q ≠ p) :
    reqRelease p h l = l := by
  rcases Option.map_eq_some'.mp hq with ⟨e, hfind, he2⟩
  have hmem : e ∈ l := List.mem_of_find?_eq_some hfind
  have he1 : e.1 = h := by
    have := List.find?_some hfind
    simpa using this
  unfold reqRelease
  apply List.filter_eq_self.mpr
  intro a ha
  by_cases hah : a.1 = h
  · have ha2 : a.2 = q := by
      rw [← he2]
      exact hl a ha e hmem (by rw [hah, he1])
    have hap : a.2 ≠ p := by rw [ha2]; exact hne
    simp [hah, hap]
  · simp [hah]

/-- C7: `Release(peerID, hash, kind)` is idempotent and owner-guarded —
releasing twice with the same arguments equals releasing once, and a release
by a non-owner (in particular a stale release by a previous owner after
reassignment) leaves the tracker unchanged. -/
theorem release_idempotent_and_owner_guarded (t : RequestTracker)
    (p q : PeerID) (h : Hash) (k : InvKind) :
    (t.release p h k).release p h k = t.release p h k ∧
    (TrackerInv t → t.owner h k = some q → q ≠ p → t.release p h k = t) := by
  constructor
  · cases k <;> simp [RequestTracker.release, reqRelease_idem]
  · intro hinv hq hne
    cases k with
    | block =>
      simp only [RequestTracker.owner] at hq
      simp only [RequestTracker.release]
      rw [reqRelease_stale hinv.1 hq hne]
    | tx =>
      simp only [RequestTracker.owner] at hq
      simp only [RequestTracker.release]
      rw [reqRelease_stale hinv.2 hq hne]

/-- Witness for C7 on the example tracker: a stale release by peer 2 of
block 5 (owned by peer 1) is a no-op, and releasing is idempotent. -/
theorem release_idempotent_and_owner_guarded_witness :
    ((exTracker.release 2 5 .block).release 2 5 .block =
        exTracker.release 2 5 .block ∧
      (TrackerInv exTracker → exTracker.owner 5 .block = some 1 →
        (1 : PeerID) ≠ 2 → exTracker.release 2 5 .block = exTracker)) ∧
    exTracker.release 2 5 .block = exTracker :=
  ⟨release_idempotent_and_owner_guarded exTracker 2 1 5 .block,
    (release_idempotent_and_owner_guarded exTracker 2 1 5 .block).2
      (by decide) (by decide) (by decide)⟩

/-! ### Configuration (C8) -/

/-- C8 counterexample: the spec's list of tuning parameters is not contained
in the fields of `netsync.Config` — of `MaxPeers`, `OrphanCapacity`,
`OrphanExpiry`, `PipelineDepth`, `StallCheckInterval`, `StallThreshold`,
only `MaxPeers` is declared in `netsync/interface.go`. -/
theorem config_lacks_claimed_tuning_fields :
    ¬ (∀ f ∈ specClaimedTuningFields, f ∈ configFieldNames) := by decide

/-- C8 amended: among the tuning parameters the spec lists, only the max
peers considered for sync-peer selection (`MaxPeers`) is a field of the sync
manager's `Config`; orphan-pool capacity and expiry, pipeline depth, and the
stall-check interval and threshold are not configuration fields. -/
theorem config_tuning_fields_only_maxPeers :
    "MaxPeers" ∈ configFieldNames ∧
    (∀ f ∈ specClaimedTuningFields, f ≠ "MaxPeers" →
      f ∉ configFieldNames) := by decide

/-! ### Package logger (C9) -/

/-- C9: the `netsync` package logger starts as the nil interface (no `init`
function runs `DisableLog`), a logging call in that state fails (nil
dereference), `DisableLog` installs the disabled logger, and `UseLogger`
installs the supplied logger. -/
theorem netsync_logger_nil_until_configured :
    netsyncLogStart = none ∧
    netsyncLogCall netsyncLogStart = .error () ∧
    (∀ s, netsyncDisableLog s = some .disabled) ∧
    (∀ logger s, netsyncUseLogger logger s = some logger) ∧
    (∀ logger, netsyncLogCall (some logger) = .ok logger) :=
  ⟨rfl, rfl, fun _ => rfl, fun _ _ => rfl, fun _ => rfl⟩

/-! ### `hdfdExecutablePath` caching (C10) -/

/-- C10: `hdfdExecutablePath` caches its result — once a call has returned a
path without error, every subsequent call (under any external environment)
returns exactly the same path with unchanged state and does not run the
build command again. -/
theorem hdfdExecutablePath_caches (env env' : BuildEnv) (s s' : RpctestState)
    (p : String) (ran : Bool)
    (hcall : hdfdExecutablePath env s = (.ok p, s', ran)) :
    hdfdExecutablePath env' s' = (.ok p, s', false) := by
  have hstate : s'.executablePath = p ∧ p.length ≠ 0 := by
    by_cases hne : s.executablePath.length ≠ 0
    · have hred : hdfdExecutablePath env s = (.ok s.executablePath, s, false) := by
        unfold hdfdExecutablePath
        rw [if_pos hne]
      rw [hred] at hcall
      simp only [Prod.mk.injEq, Except.ok.injEq] at hcall
      obtain ⟨h1, h2, -⟩ := hcall
      rw [← h2, ← h1]
      exact ⟨rfl, hne⟩
    · cases henv : env.baseDir with
      | error e =>
        unfold hdfdExecutablePath at hcall
        rw [if_neg hne, henv] at hcall
        simp at hcall
      | ok testDir =>
        cases hbe : env.buildErr with
        | some e =>
          unfold hdfdExecutablePath at hcall
          rw [if_neg hne, henv] at hcall
          simp only [hbe] at hcall
          simp at hcall
        | none =>
          unfold hdfdExecutablePath at hcall
          rw [if_neg hne, henv] at hcall
          simp only [hbe] at hcall
          simp only [Prod.mk.injEq, Except.ok.injEq] at hcall
          obtain ⟨h1, h2, -⟩ := hcall
          refine ⟨by rw [← h2, ← h1], ?_⟩
          rw [← h1]
          have h5 : ("/hdfd" : String).length = 5 := by decide
          simp only [String.length_append, h5]
          omega
  unfold hdfdExecutablePath
  rw [if_pos (by rw [hstate.1]; exact hstate.2), hstate.1]

/-- Witness for C10: after a first successful call from the initial state
(base directory `/tmp`, non-Windows, successful build), the second call
returns the same path without rebuilding. -/
theorem hdfdExecutablePath_caches_witness :
    hdfdExecutablePath ⟨.ok "/tmp", false, none⟩ rpctestInit =
      (.ok "/tmp/hdfd", ⟨"/tmp/hdfd"⟩, true) ∧
    hdfdExecutablePath ⟨.error "gone", true, some "broken"⟩ ⟨"/tmp/hdfd"⟩ =
      (.ok "/tmp/hdfd", ⟨"/tmp/hdfd"⟩, false) :=
  ⟨rfl,
    hdfdExecutablePath_caches ⟨.ok "/tmp", false, none⟩
      ⟨.error "gone", true, some "broken"⟩ rpctestInit
      ⟨"/tmp/hdfd"⟩ "/tmp/hdfd" true rfl⟩

/-! ### Orphan-pool invariant (C3) -/

theorem orphanInv_of_filter (cap : Nat) {pool : OrphanPool}
    (q : OrphanEntry → Bool) (hinv : OrphanInv cap pool) :
    OrphanInv cap ⟨pool.entries.filter q⟩ := by
  constructor
  · exact le_trans (List.length_filter_le _ _) hinv.1
  · exact hinv.2.sublist ((List.filter_sublist pool.entries).map _)

theorem not_containsHash_forall {pool : OrphanPool} {h : Hash}
    (hc : ¬ pool.containsHash h = true) :
    ∀ e ∈ pool.entries, e.block.hash ≠ h := by
  intro e he heq
  apply hc
  unfold OrphanPool.containsHash
  rw [List.any_eq_true]
  exact ⟨e, he, by simp [heq]⟩

theorem orphanInv_add (cap : Nat) (b : BlockMsg) (fp : PeerID) (exp : Time)
    {pool : OrphanPool} (hinv : OrphanInv cap pool) :
    OrphanInv cap (OrphanPool.add cap b fp exp pool).2 := by
  unfold OrphanPool.add
  split
  · exact hinv
  · rename_i hcon
    split
    · exact hinv
    · rename_i hcap
      split
      · rename_i hlen
        constructor
        · simp only [List.length_append, List.length_cons, List.length_nil]
          omega
        · rw [List.map_append]
          refine hinv.2.append (by simp) ?_
          intro x hx hx'
          simp only [List.map_cons, List.map_nil, List.mem_singleton] at hx'
          rcases List.mem_map.mp hx with ⟨e, he, hxe⟩
          exact not_containsHash_forall hcon e he (by rw [hxe, hx'])
      · rename_i hlen
        have hsub : List.Sublist
            (pool.entries.drop (pool.entries.length + 1 - cap))
            pool.entries := List.drop_sublist _ _
        constructor
        · simp only [List.length_append, List.length_drop, List.length_cons,
            List.length_nil]
          omega
        · rw [List.map_append]
          refine (hinv.2.sublist (hsub.map _)).append (by simp) ?_
          intro x hx hx'
          simp only [List.map_cons, List.map_nil, List.mem_singleton] at hx'
          rcases List.mem_map.mp hx with ⟨e, he, hxe⟩
          exact not_containsHash_forall hcon e (hsub.subset he)
            (by rw [hxe, hx'])

/-- C3: orphan-pool operations preserve the capacity invariant — the pool
never exceeds the configured capacity and never holds two entries for the
same block hash; a duplicate insertion is refused outright, and inserting
into a full pool evicts the oldest entry instead of growing. -/
theorem orphan_pool_ops_preserve_capacity (cap : Nat) (pool : OrphanPool)
    (b : BlockMsg) (fp : PeerID) (exp now : Time) (parent : Hash)
    (hinv : OrphanInv cap pool) :
    OrphanInv cap (OrphanPool.add cap b fp exp pool).2 ∧
    OrphanInv cap (OrphanPool.expire now pool).2 ∧
    OrphanInv cap (OrphanPool.resolveChildrenOf parent pool).2 ∧
    (pool.containsHash b.hash = true →
      OrphanPool.add cap b fp exp pool = (none, pool)) ∧
    (pool.containsHash b.hash = false → cap ≠ 0 →
      pool.entries.length = cap →
      (OrphanPool.add cap b fp exp pool).2.entries =
        pool.entries.drop 1 ++ [⟨b, fp, exp⟩]) := by
  refine ⟨orphanInv_add cap b fp exp hinv,
    orphanInv_of_filter cap _ hinv, orphanInv_of_filter cap _ hinv,
    ?_, ?_⟩
  · intro hcon
    unfold OrphanPool.add
    rw [if_pos hcon]
  · intro hcon hcap hlen
    unfold OrphanPool.add
    rw [if_neg (by rw [hcon]; simp), if_neg hcap, if_neg (by omega)]
    simp only [hlen]
    have : cap + 1 - cap = 1 := by omega
    rw [this]

/-- Witness for C3 on a one-entry pool at capacity 1: adding a fresh orphan
evicts the old entry, duplicates are refused, and every operation stays
within capacity. -/
theorem orphan_pool_ops_preserve_capacity_witness :
    OrphanInv 1 ⟨[⟨⟨2, 1⟩, 1, 10⟩]⟩ ∧
    (OrphanInv 1 (OrphanPool.add 1 ⟨7, 6⟩ 2 20 ⟨[⟨⟨2, 1⟩, 1, 10⟩]⟩).2 ∧
      OrphanInv 1 (OrphanPool.expire 15 ⟨[⟨⟨2, 1⟩, 1, 10⟩]⟩).2 ∧
      OrphanInv 1 (OrphanPool.resolveChildrenOf 1 ⟨[⟨⟨2, 1⟩, 1, 10⟩]⟩).2 ∧
      ((⟨[⟨⟨2, 1⟩, 1, 10⟩]⟩ : OrphanPool).containsHash 7 = true →
        OrphanPool.add 1 ⟨7, 6⟩ 2 20 ⟨[⟨⟨2, 1⟩, 1, 10⟩]⟩ =
          (none, ⟨[⟨⟨2, 1⟩, 1, 10⟩]⟩)) ∧
      ((⟨[⟨⟨2, 1⟩, 1, 10⟩]⟩ : OrphanPool).containsHash 7 = false →
        (1 : Nat) ≠ 0 →
        ([⟨⟨2, 1⟩, 1, 10⟩] : List OrphanEntry).length = 1 →
        (OrphanPool.add 1 ⟨7, 6⟩ 2 20 ⟨[⟨⟨2, 1⟩, 1, 10⟩]⟩).2.entries =
          ([⟨⟨2, 1⟩, 1, 10⟩] : List OrphanEntry).drop 1 ++ [⟨⟨7, 6⟩, 2, 20⟩])) :=
  ⟨by decide,
    orphan_pool_ops_preserve_capacity 1 ⟨[⟨⟨2, 1⟩, 1, 10⟩]⟩ ⟨7, 6⟩ 2 20 15 1
      (by decide)⟩

/-! ### Duplicate delivery (C4) -/

/-- C4: re-delivering a block already known to the chain oracle, or a
transaction already known to the mempool oracle, causes no oracle mutation —
the handlers discard the duplicate, leaving the oracle (and orphan pool)
exactly as they were. -/
theorem duplicate_delivery_no_mutation (cfg : SyncConfig) (now : Time)
    (s : ManagerState) (p : PeerID) (b : BlockMsg) (tx : TxMsg)
    (hb : s.oracle.haveBlock b.hash = true)
    (ht : s.mempool.haveTransaction tx.hash = true) :
    (handleEvent cfg now (.blockReceived p b) s).1.oracle = s.oracle ∧
    (handleEvent cfg now (.blockReceived p b) s).1.orphans = s.orphans ∧
    (handleEvent cfg now (.txReceived p tx) s).1.mempool = s.mempool := by
  refine ⟨?_, ?_, ?_⟩ <;>
    simp [handleEvent, handleBlockReceived, handleTxReceived, hb, ht]

/-- Witness for C4: re-delivering the genesis block and a mempool-known
transaction to the example state mutates neither oracle. -/
theorem duplicate_delivery_no_mutation_witness :
    exState.oracle.haveBlock (0 : Hash) = true ∧
    exState.mempool.haveTransaction (4 : Hash) = true ∧
    ((handleEvent exCfg 9 (.blockReceived 2 ⟨0, 99⟩) exState).1.oracle =
        exState.oracle ∧
      (handleEvent exCfg 9 (.blockReceived 2 ⟨0, 99⟩) exState).1.orphans =
        exState.orphans ∧
      (handleEvent exCfg 9 (.txReceived 2 ⟨4⟩) exState).1.mempool =
        exState.mempool) :=
  ⟨by decide, by decide,
    duplicate_delivery_no_mutation exCfg 9 exState 2 ⟨0, 99⟩ ⟨4⟩
      (by decide) (by decide)⟩

/-! ### Disconnect cleanup (C5) -/

theorem mem_releaseAll_ne {l : ReqMap} {p : PeerID} :
    ∀ e ∈ reqReleaseAll p l, e.2 ≠ p := by
  intro e he
  have := List.of_mem_filter he
  simpa using this

theorem reqOwner_releaseAll {l : ReqMap} {P : PeerID} {h : Hash}
    (hl : AtMostOneOwner l) (hown : reqOwner l h = some P) :
    reqOwner (reqReleaseAll P l) h = none := by
  rcases Option.map_eq_some'.mp hown with ⟨e, hfind, he2⟩
  have hmem := List.mem_of_find?_eq_some hfind
  have he1 : e.1 = h := by simpa using List.find?_some hfind
  rw [reqOwner_eq_none_iff]
  intro a ha heq
  have haP : a.2 = P := by
    rw [← he2]
    exact hl a (List.mem_of_mem_filter ha) e hmem (by rw [heq, he1])
  have := List.of_mem_filter ha
  simp [haP] at this

theorem reqTryReserve_true_of_none {l : ReqMap} {h : Hash} (q : PeerID)
    (hnone : reqOwner l h = none) : (reqTryReserve q h l).1 = true := by
  unfold reqTryReserve
  rw [hnone]

/-- C5: after `PeerDisconnected(P)`, no tracker entry attributes ownership to
P; every hash P held becomes requestable again (a `TryReserve` by any peer
succeeds); and when P was the sync peer, the sync peer is re-selected among
the remaining peers. -/
theorem peer_disconnected_cleanup (cfg : SyncConfig) (now : Time)
    (s : ManagerState) (P : PeerID) (hinv : TrackerInv s.tracker) :
    (∀ e ∈ (handleEvent cfg now (.peerDisconnected P) s).1.tracker.requestedBlocks,
      e.2 ≠ P) ∧
    (∀ e ∈ (handleEvent cfg now (.peerDisconnected P) s).1.tracker.requestedTxns,
      e.2 ≠ P) ∧
    (∀ h k q, s.tracker.owner h k = some P →
      (((handleEvent cfg now (.peerDisconnected P) s).1.tracker.tryReserve
        q h k)).1 = true) ∧
    (s.syncPeer = some P →
      (handleEvent cfg now (.peerDisconnected P) s).1.syncPeer =
        (selectSyncPeer cfg s.oracle
          (s.peers.filter (fun ps => !(ps.id == P)))).map
          (fun ps => ps.id)) := by
  have htr : (handleEvent cfg now (.peerDisconnected P) s).1.tracker =
      s.tracker.releaseAll P := by
    simp only [handleEvent, handlePeerDisconnected]
    split <;> rfl
  refine ⟨?_, ?_, ?_, ?_⟩
  · rw [htr]
    exact mem_releaseAll_ne
  · rw [htr]
    exact mem_releaseAll_ne
  · intro h k q hown
    rw [htr]
    cases k with
    | block =>
      exact reqTryReserve_true_of_none q (reqOwner_releaseAll hinv.1 hown)
    | tx =>
      exact reqTryReserve_true_of_none q (reqOwner_releaseAll hinv.2 hown)
  · intro hsp
    simp only [handleEvent, handlePeerDisconnected]
    rw [if_pos (by simp [hsp])]
    simp only [startSync]
    cases hsel : selectSyncPeer cfg s.oracle
        (s.peers.filter (fun ps => !(ps.id == P))) <;>
      simp [hsel]

/-- Witness for C5: disconnecting the sync peer 1 of the example state
releases its reservations, makes its hashes requestable, and re-runs
selection over the remaining peers. -/
theorem peer_disconnected_cleanup_witness :
    TrackerInv exState.tracker ∧
    ((∀ e ∈ (handleEvent exCfg 50 (.peerDisconnected 1) exState).1.tracker.requestedBlocks,
        e.2 ≠ 1) ∧
      (∀ e ∈ (handleEvent exCfg 50 (.peerDisconnected 1) exState).1.tracker.requestedTxns,
        e.2 ≠ 1) ∧
      (∀ h k q, exState.tracker.owner h k = some 1 →
        (((handleEvent exCfg 50 (.peerDisconnected 1) exState).1.tracker.tryReserve
          q h k)).1 = true) ∧
      (exState.syncPeer = some 1 →
        (handleEvent exCfg 50 (.peerDisconnected 1) exState).1.syncPeer =
          (selectSyncPeer exCfg exState.oracle
            (exState.peers.filter (fun ps => !(ps.id == 1)))).map
            (fun ps => ps.id))) :=
  ⟨by decide, peer_disconnected_cleanup exCfg 50 exState 1 (by decide)⟩

/-! ### At-most-one-outstanding-request invariant (C1) -/

theorem trackerInv_foldl {α : Type}
    (f : RequestTracker × List Command → α → RequestTracker × List Command)
    (hf : ∀ acc a, TrackerInv acc.1 → TrackerInv (f acc a).1) :
    ∀ (l : List α) (acc : RequestTracker × List Command),
      TrackerInv acc.1 → TrackerInv (l.foldl f acc).1 := by
  intro l
  induction l with
  | nil => intro acc hacc; exact hacc
  | cons a as ih => intro acc hacc; exact ih _ (hf acc a hacc)

theorem trackerInv_handleEvent (cfg : SyncConfig) (now : Time) (e : Event)
    (s : ManagerState) (hs : TrackerInv s.tracker) :
    TrackerInv (handleEvent cfg now e s).1.tracker := by
  cases e with
  | peerConnected p cand height =>
    simp only [handleEvent, handlePeerConnected]
    cases s.syncPeer <;> exact hs
  | peerDisconnected p =>
    simp only [handleEvent, handlePeerDisconnected]
    split <;> exact trackerInv_releaseAll _ _ hs
  | invReceived p items =>
    simp only [handleEvent, handleInvReceived]
    split
    · exact hs
    · refine trackerInv_foldl _ ?_ items (s.tracker, []) hs
      intro acc a hacc
      dsimp only
      split
      · exact hacc
      · split
        · exact trackerInv_tryReserve _ _ _ _ hacc
        · exact hacc
  | blockReceived p b =>
    simp only [handleEvent, handleBlockReceived]
    split
    · exact trackerInv_release _ _ _ _ hs
    · split
      · exact trackerInv_release _ _ _ _ hs
      · exact trackerInv_tryReserve _ _ _ _ (trackerInv_release _ _ _ _ hs)
      · exact trackerInv_release _ _ _ _ hs
  | txReceived p t =>
    simp only [handleEvent, handleTxReceived]
    split <;> exact trackerInv_release _ _ _ _ hs
  | stallTick =>
    simp only [handleEvent, handleStallTick]
    split
    · exact hs
    · split
      · exact trackerInv_releaseAll _ _ hs
      · exact hs

/-- C1: the at-most-one-outstanding-request invariant — it holds of the empty
tracker, every tracker operation (`TryReserve`, `Release`, `ReleaseAll`)
preserves it, and every event handler of the sync manager preserves it, so
every reachable tracker state credits each hash to at most one peer. -/
theorem tracker_at_most_one_owner (cfg : SyncConfig) (now : Time) (e : Event)
    (s : ManagerState) (t : RequestTracker) (p : PeerID) (h : Hash)
    (k : InvKind) (hs : TrackerInv s.tracker) (ht : TrackerInv t) :
    TrackerInv RequestTracker.empty ∧
    TrackerInv (t.tryReserve p h k).2 ∧
    TrackerInv (t.release p h k) ∧
    TrackerInv (t.releaseAll p) ∧
    TrackerInv (handleEvent cfg now e s).1.tracker :=
  ⟨by decide, trackerInv_tryReserve t p h k ht, trackerInv_release t p h k ht,
    trackerInv_releaseAll t p ht, trackerInv_handleEvent cfg now e s hs⟩

/-- Witness for C1: the invariant holds of the example tracker and is
preserved by a reservation, releases, and a block-delivery event on the
example state. -/
theorem tracker_at_most_one_owner_witness :
    TrackerInv exState.tracker ∧ TrackerInv exTracker ∧
    (TrackerInv RequestTracker.empty ∧
      TrackerInv (exTracker.tryReserve 2 11 .block).2 ∧
      TrackerInv (exTracker.release 2 11 .block) ∧
      TrackerInv (exTracker.releaseAll 2) ∧
      TrackerInv (handleEvent exCfg 9 (.blockReceived 1 ⟨8, 0⟩) exState).1.tracker) :=
  ⟨by decide, by decide,
    tracker_at_most_one_owner exCfg 9 (.blockReceived 1 ⟨8, 0⟩) exState
      exTracker 2 11 .block (by decide) (by decide)⟩

/-! ### Stall detection and sync-peer replacement (C6) -/

theorem selBetter_foldl_mem :
    ∀ (cands : List PeerSyncState) (acc : Option PeerSyncState)
      (q : PeerSyncState), cands.foldl selBetter acc = some q →
      acc = some q ∨ q ∈ cands := by
  intro cands
  induction cands with
  | nil =>
    intro acc q hq
    exact Or.inl hq
  | cons c cs ih =>
    intro acc q hq
    rcases ih _ q hq with hl | hr
    · cases acc with
      | none =>
        simp only [selBetter, Option.some.injEq] at hl
        exact Or.inr (by rw [← hl]; exact List.mem_cons_self c cs)
      | some b =>
        simp only [selBetter] at hl
        split at hl
        · simp only [Option.some.injEq] at hl
          exact Or.inr (by rw [← hl]; exact List.mem_cons_self c cs)
        · exact Or.inl hl
    · exact Or.inr (List.mem_cons_of_mem c hr)

theorem selectSyncPeer_mem (cfg : SyncConfig) (o : ChainOracle)
    (peers : List PeerSyncState) (q : PeerSyncState)
    (hq : selectSyncPeer cfg o peers = some q) :
    q ∈ peers ∧ q.syncCandidate = true := by
  unfold selectSyncPeer at hq
  rcases selBetter_foldl_mem _ none q hq with h | h
  · exact absurd h (by simp)
  · have hm := List.mem_filter.mp h
    refine ⟨List.take_subset _ _ hm.1, ?_⟩
    have hp := hm.2
    simp only [Bool.and_eq_true] at hp
    exact hp.1

theorem stallMark_id_not_candidate (P : PeerID)
    (peers : List PeerSyncState) :
    ∀ ps ∈ stallMark P peers, ps.id = P → ps.syncCandidate = false := by
  intro ps hps hid
  rcases List.mem_map.mp hps with ⟨a, ha, hfa⟩
  by_cases hap : a.id = P
  · rw [← hfa]
    simp [hap]
  · rw [← hfa] at hid
    simp only [hap, beq_iff_eq, if_neg] at hid
    exact absurd hid hap

theorem selectSyncPeer_stallMark_ne (cfg : SyncConfig) (o : ChainOracle)
    (P : PeerID) (peers : List PeerSyncState) (q : PeerSyncState)
    (hq : selectSyncPeer cfg o (stallMark P peers) = some q) : q.id ≠ P := by
  intro hid
  have hm := selectSyncPeer_mem cfg o (stallMark P peers) q hq
  have hfalse := stallMark_id_not_candidate P peers q hm.1 hid
  rw [hm.2] at hfalse
  exact Bool.noConfusion hfalse

/-- C6: once the sync peer P has an outstanding request older than the stall
threshold, processing a stall tick fully releases P's tracker entries, drops
P as sync peer, and — when selection over the remaining candidates finds a
qualifying peer — installs that (different) peer as sync peer and issues it a
new request. -/
theorem stall_check_replaces_sync_peer (cfg : SyncConfig) (now : Time)
    (s : ManagerState) (P : PeerID)
    (hsp : s.syncPeer = some P)
    (hstall : stalled cfg now P s.peers = true) :
    (∀ e ∈ (handleEvent cfg now .stallTick s).1.tracker.requestedBlocks,
      e.2 ≠ P) ∧
    (∀ e ∈ (handleEvent cfg now .stallTick s).1.tracker.requestedTxns,
      e.2 ≠ P) ∧
    (handleEvent cfg now .stallTick s).1.syncPeer ≠ some P ∧
    (∀ q, selectSyncPeer cfg s.oracle (stallMark P s.peers) = some q →
      (handleEvent cfg now .stallTick s).1.syncPeer = some q.id ∧
      q.id ≠ P ∧
      Command.requestHeaders q.id s.oracle.tipHash ∈
        (handleEvent cfg now .stallTick s).2) := by
  have hred : handleEvent cfg now .stallTick s =
      (let tracker1 := s.tracker.releaseAll P
       let r := startSync cfg now s.oracle (stallMark P s.peers)
       ({ s with peers := r.2.1, syncPeer := r.1, tracker := tracker1 },
        r.2.2)) := by
    simp only [handleEvent, handleStallTick, hsp]
    rw [if_pos hstall]
  rw [hred]
  cases hsel : selectSyncPeer cfg s.oracle (stallMark P s.peers) with
  | none =>
    simp only [startSync, hsel]
    refine ⟨mem_releaseAll_ne, mem_releaseAll_ne, by simp, ?_⟩
    intro q hq
    exact absurd hq (by simp)
  | some q =>
    have hne := selectSyncPeer_stallMark_ne cfg s.oracle P s.peers q hsel
    simp only [startSync, hsel]
    refine ⟨mem_releaseAll_ne, mem_releaseAll_ne, by simpa using hne, ?_⟩
    intro q' hq'
    have hqq : q = q' := by injection hq'
    subst hqq
    exact ⟨rfl, hne, by simp⟩

/-- Witness for C6 on the example state at time 100: sync peer 1's request
from time 0 has exceeded the 60-tick threshold, so peer 2 takes over and is
issued a fresh headers request. -/
theorem stall_check_replaces_sync_peer_witness :
    exState.syncPeer = some 1 ∧
    stalled exCfg 100 1 exState.peers = true ∧
    ((∀ e ∈ (handleEvent exCfg 100 .stallTick exState).1.tracker.requestedBlocks,
        e.2 ≠ 1) ∧
      (∀ e ∈ (handleEvent exCfg 100 .stallTick exState).1.tracker.requestedTxns,
        e.2 ≠ 1) ∧
      (handleEvent exCfg 100 .stallTick exState).1.syncPeer ≠ some 1 ∧
      (∀ q, selectSyncPeer exCfg exState.oracle (stallMark 1 exState.peers) =
          some q →
        (handleEvent exCfg 100 .stallTick exState).1.syncPeer = some q.id ∧
        q.id ≠ 1 ∧
        Command.requestHeaders q.id exState.oracle.tipHash ∈
          (handleEvent exCfg 100 .stallTick exState).2)) :=
  ⟨by decide, by decide,
    stall_check_replaces_sync_peer exCfg 100 exState 1 (by decide) (by decide)⟩

/-! ### Orphan-chain resolution (C2) -/

theorem find?_cons_isSome {l : List (Hash × Nat)} (p : Hash × Nat → Bool)
    (a : Hash × Nat) (h : (l.find? p).isSome = true) :
    (((a :: l).find? p)).isSome = true := by
  by_cases hpa : p a = true
  · rw [List.find?_cons_of_pos _ hpa]
    rfl
  · rw [List.find?_cons_of_neg _ (by simpa using hpa)]
    exact h

theorem haveBlock_processBlock_mono (o : ChainOracle) (b : BlockMsg)
    (x : Hash) (hx : o.haveBlock x = true) :
    (o.processBlock b).2.haveBlock x = true := by
  unfold ChainOracle.processBlock
  split
  · exact hx
  · split
    · exact hx
    · simp only [ChainOracle.haveBlock] at hx ⊢
      exact find?_cons_isSome _ _ hx

theorem processBlock_accepted_haveBlock (o : ChainOracle) (b : BlockMsg)
    (hacc : (o.processBlock b).1 = .accepted) :
    (o.processBlock b).2.haveBlock b.hash = true := by
  unfold ChainOracle.processBlock at hacc ⊢
  by_cases hknown : o.haveBlock b.hash = true
  · rw [if_pos hknown] at hacc
    exact absurd hacc (by simp)
  · rw [if_neg hknown] at hacc ⊢
    cases hfound : o.heightOf b.parent with
    | none =>
      rw [hfound] at hacc
      exact absurd hacc (by simp)
    | some hp =>
      dsimp only
      simp only [ChainOracle.haveBlock]
      rw [List.find?_cons_of_pos _ (by simp)]
      rfl

theorem processBlock_not_accepted_eq (o : ChainOracle) (b : BlockMsg)
    (hna : (o.processBlock b).1 ≠ .accepted) : (o.processBlock b).2 = o := by
  unfold ChainOracle.processBlock at hna ⊢
  by_cases hknown : o.haveBlock b.hash = true
  · rw [if_pos hknown]
  · rw [if_neg hknown] at hna ⊢
    cases hfound : o.heightOf b.parent with
    | none => rfl
    | some hp =>
      rw [hfound] at hna
      exact absurd rfl hna

theorem processBlock_haveBlock_inv (o : ChainOracle) (b : BlockMsg)
    (x : Hash) (hx : (o.processBlock b).2.haveBlock x = true) :
    o.haveBlock x = true ∨ x = b.hash := by
  unfold ChainOracle.processBlock at hx
  by_cases hknown : o.haveBlock b.hash = true
  · rw [if_pos hknown] at hx
    exact Or.inl hx
  · rw [if_neg hknown] at hx
    cases hfound : o.heightOf b.parent with
    | none =>
      rw [hfound] at hx
      exact Or.inl hx
    | some hp =>
      rw [hfound] at hx
      simp only [ChainOracle.haveBlock] at hx ⊢
      by_cases hbx : b.hash = x
      · exact Or.inr hbx.symm
      · rw [List.find?_cons_of_neg _ (by simpa using hbx)] at hx
        exact Or.inl hx

theorem foldChildren_cons (c : OrphanEntry) (cs : List OrphanEntry)
    (o : ChainOracle) (acc0 : List BlockMsg) :
    foldChildren (c :: cs) o acc0 =
      foldChildren cs (o.processBlock c.block).2
        (match (o.processBlock c.block).1 with
         | .accepted => acc0 ++ [c.block]
         | _ => acc0) := by
  simp only [foldChildren, List.foldl_cons]
  cases (o.processBlock c.block).1 <;> rfl

theorem foldChildren_cons_accepted (c : OrphanEntry) (cs : List OrphanEntry)
    (o : ChainOracle) (acc0 : List BlockMsg)
    (hpr : (o.processBlock c.block).1 = .accepted) :
    foldChildren (c :: cs) o acc0 =
      foldChildren cs (o.processBlock c.block).2 (acc0 ++ [c.block]) := by
  rw [foldChildren_cons, hpr]

theorem foldChildren_cons_not_accepted (c : OrphanEntry)
    (cs : List OrphanEntry) (o : ChainOracle) (acc0 : List BlockMsg)
    (hpr : (o.processBlock c.block).1 ≠ .accepted) :
    foldChildren (c :: cs) o acc0 = foldChildren cs o acc0 := by
  rw [foldChildren_cons, processBlock_not_accepted_eq o c.block hpr]
  cases hpr2 : (o.processBlock c.block).1 with
  | accepted => exact absurd hpr2 hpr
  | orphan => rfl
  | duplicate => rfl

theorem foldChildren_mono (children : List OrphanEntry) :
    ∀ (o : ChainOracle) (acc0 : List BlockMsg) (x : Hash),
      o.haveBlock x = true →
      (foldChildren children o acc0).1.haveBlock x = true := by
  induction children with
  | nil =>
    intro o acc0 x hx
    exact hx
  | cons c cs ih =>
    intro o acc0 x hx
    rw [foldChildren_cons]
    exact ih _ _ x (haveBlock_processBlock_mono o c.block x hx)

theorem foldChildren_sound (children : List OrphanEntry) :
    ∀ (o : ChainOracle) (acc0 : List BlockMsg),
      (∀ a ∈ acc0, o.haveBlock a.hash = true) →
      ∀ b ∈ (foldChildren children o acc0).2,
        (foldChildren children o acc0).1.haveBlock b.hash = true ∧
        (b ∈ acc0 ∨ b ∈ children.map (fun e => e.block)) := by
  induction children with
  | nil =>
    intro o acc0 hacc b hb
    exact ⟨hacc b hb, Or.inl hb⟩
  | cons c cs ih =>
    intro o acc0 hacc b hb
    by_cases hpr : (o.processBlock c.block).1 = .accepted
    · rw [foldChildren_cons_accepted c cs o acc0 hpr] at hb ⊢
      have hacc' : ∀ a ∈ acc0 ++ [c.block],
          (o.processBlock c.block).2.haveBlock a.hash = true := by
        intro a ha
        rcases List.mem_append.mp ha with ha | ha
        · exact haveBlock_processBlock_mono o c.block _ (hacc a ha)
        · rw [List.mem_singleton.mp ha]
          exact processBlock_accepted_haveBlock o c.block hpr
      rcases ih _ _ hacc' b hb with ⟨hhave, hmem⟩
      refine ⟨hhave, ?_⟩
      rcases hmem with hmem | hmem
      · rcases List.mem_append.mp hmem with hmem | hmem
        · exact Or.inl hmem
        · rw [List.mem_singleton.mp hmem]
          exact Or.inr (by simp)
      · exact Or.inr (by simp [hmem])
    · rw [foldChildren_cons_not_accepted c cs o acc0 hpr] at hb ⊢
      rcases ih _ _ hacc b hb with ⟨hhave, hmem⟩
      refine ⟨hhave, ?_⟩
      rcases hmem with hmem | hmem
      · exact Or.inl hmem
      · exact Or.inr (by simp [hmem])

theorem foldChildren_acc_prefix (children : List OrphanEntry) :
    ∀ (o : ChainOracle) (acc0 : List BlockMsg),
      ∃ tail, (foldChildren children o acc0).2 = acc0 ++ tail := by
  induction children with
  | nil =>
    intro o acc0
    exact ⟨[], (List.append_nil acc0).symm⟩
  | cons c cs ih =>
    intro o acc0
    by_cases hpr : (o.processBlock c.block).1 = .accepted
    · rw [foldChildren_cons_accepted c cs o acc0 hpr]
      rcases ih (o.processBlock c.block).2 (acc0 ++ [c.block]) with
        ⟨tail, htail⟩
      exact ⟨c.block :: tail, by rw [htail, List.append_assoc]; rfl⟩
    · rw [foldChildren_cons_not_accepted c cs o acc0 hpr]
      exact ih _ _

theorem foldChildren_haveBlock_inv (children : List OrphanEntry) :
    ∀ (o : ChainOracle) (acc0 : List BlockMsg) (x : Hash),
      (foldChildren children o acc0).1.haveBlock x = true →
      o.haveBlock x = true ∨
        ∃ b ∈ (foldChildren children o acc0).2, b.hash = x := by
  induction children with
  | nil =>
    intro o acc0 x hx
    exact Or.inl hx
  | cons c cs ih =>
    intro o acc0 x hx
    by_cases hpr : (o.processBlock c.block).1 = .accepted
    · rw [foldChildren_cons_accepted c cs o acc0 hpr] at hx ⊢
      rcases ih _ _ x hx with h | h
      · rcases processBlock_haveBlock_inv o c.block x h with h' | h'
        · exact Or.inl h'
        · refine Or.inr ⟨c.block, ?_, h'.symm⟩
          rcases foldChildren_acc_prefix cs (o.processBlock c.block).2
            (acc0 ++ [c.block]) with ⟨tail, htail⟩
          rw [htail]
          simp
      · exact Or.inr h
    · rw [foldChildren_cons_not_accepted c cs o acc0 hpr] at hx ⊢
      exact ih _ _ x hx

theorem resolveChildren_parent (h : Hash) (pool : OrphanPool) :
    ∀ e ∈ (OrphanPool.resolveChildrenOf h pool).1, e.block.parent = h := by
  intro e he
  have := List.of_mem_filter he
  simpa using this

theorem promoteStep_facts (h : Hash) (o : ChainOracle) (pool : OrphanPool) :
    ∀ b ∈ (promoteStep h o pool).2.1,
      (promoteStep h o pool).1.haveBlock b.hash = true ∧ b.parent = h := by
  intro b hb
  rcases foldChildren_sound (OrphanPool.resolveChildrenOf h pool).1 o []
      (by intro a ha; exact absurd ha (List.not_mem_nil a)) b hb with
    ⟨hhave, hmem⟩
  refine ⟨hhave, ?_⟩
  rcases hmem with hmem | hmem
  · exact absurd hmem (List.not_mem_nil b)
  · rcases List.mem_map.mp hmem with ⟨e, he, hbe⟩
    rw [← hbe]
    exact resolveChildren_parent h pool e he

theorem promoteStep_mono (h : Hash) (o : ChainOracle) (pool : OrphanPool)
    (x : Hash) (hx : o.haveBlock x = true) :
    (promoteStep h o pool).1.haveBlock x = true :=
  foldChildren_mono _ o [] x hx

theorem promoteStep_haveBlock_inv (h : Hash) (o : ChainOracle)
    (pool : OrphanPool) (x : Hash)
    (hx : (promoteStep h o pool).1.haveBlock x = true) :
    o.haveBlock x = true ∨ ∃ b ∈ (promoteStep h o pool).2.1, b.hash = x :=
  foldChildren_haveBlock_inv _ o [] x hx

theorem parentBeforeChild_append (o o1 : ChainOracle)
    (acc L1 : List BlockMsg)
    (hacc : ∀ b ∈ acc, o.haveBlock b.parent = true)
    (hL1 : ParentBeforeChild o1 L1)
    (htrans : ∀ x, o1.haveBlock x = true →
      o.haveBlock x = true ∨ ∃ b ∈ acc, b.hash = x) :
    ParentBeforeChild o (acc ++ L1) := by
  intro i
  have hlen : (acc ++ L1).length = acc.length + L1.length :=
    List.length_append acc L1
  by_cases hlt : i.val < acc.length
  · have hgi : (acc ++ L1).get i = acc.get ⟨i.val, hlt⟩ :=
      List.get_append i.val hlt
    rw [hgi]
    exact Or.inl (hacc _ (List.get_mem acc _ _))
  · have hge : acc.length ≤ i.val := Nat.le_of_not_lt hlt
    have hilt : i.val < acc.length + L1.length := hlen ▸ i.isLt
    have hi' : i.val - acc.length < L1.length := by omega
    have hgi : (acc ++ L1).get i = L1.get ⟨i.val - acc.length, hi'⟩ :=
      List.get_append_right acc L1 hge
    rcases hL1 ⟨i.val - acc.length, hi'⟩ with hknown | ⟨j', hj'lt, hj'hash⟩
    · rcases htrans _ hknown with hko | ⟨b, hbmem, hbhash⟩
      · rw [hgi]
        exact Or.inl hko
      · rcases List.mem_iff_get.mp hbmem with ⟨jb, hjb⟩
        have hjblt : jb.val < acc.length := jb.isLt
        have hjlt : jb.val < (acc ++ L1).length := by
          rw [hlen]
          omega
        refine Or.inr ⟨⟨jb.val, hjlt⟩, ?_, ?_⟩
        · show jb.val < i.val
          omega
        · have hga : (acc ++ L1).get ⟨jb.val, hjlt⟩ = acc.get jb :=
            List.get_append jb.val jb.isLt
          rw [hga, hgi, hjb, hbhash]
    · have hj2 : j'.val < i.val - acc.length := hj'lt
      have hj3 : j'.val < L1.length := j'.isLt
      have hjlt : acc.length + j'.val < (acc ++ L1).length := by
        rw [hlen]
        omega
      refine Or.inr ⟨⟨acc.length + j'.val, hjlt⟩, ?_, ?_⟩
      · show acc.length + j'.val < i.val
        omega
      · have hga : (acc ++ L1).get ⟨acc.length + j'.val, hjlt⟩ =
            L1.get ⟨acc.length + j'.val - acc.length, by omega⟩ :=
          List.get_append_right acc L1 (Nat.le_add_right _ _)
        have hidx : L1.get ⟨acc.length + j'.val - acc.length, by omega⟩ =
            L1.get j' := by
          congr 1
          exact Fin.ext (by show acc.length + j'.val - acc.length = j'.val; omega)
        rw [hga, hidx, hgi, hj'hash]

theorem promoteOrphans_cons (fuel : Nat) (h : Hash) (rest : List Hash)
    (o : ChainOracle) (pool : OrphanPool) :
    promoteOrphans (fuel + 1) (h :: rest) o pool =
      ((promoteOrphans fuel
          (rest ++ (promoteStep h o pool).2.1.map (fun b => b.hash))
          (promoteStep h o pool).1 (promoteStep h o pool).2.2).1,
        (promoteStep h o pool).2.1 ++
          (promoteOrphans fuel
            (rest ++ (promoteStep h o pool).2.1.map (fun b => b.hash))
            (promoteStep h o pool).1 (promoteStep h o pool).2.2).2.1,
        (promoteOrphans fuel
          (rest ++ (promoteStep h o pool).2.1.map (fun b => b.hash))
          (promoteStep h o pool).1 (promoteStep h o pool).2.2).2.2) := rfl

theorem promoteOrphans_pbc :
    ∀ (fuel : Nat) (queue : List Hash) (o : ChainOracle) (pool : OrphanPool),
      (∀ x ∈ queue, o.haveBlock x = true) →
      ParentBeforeChild o (promoteOrphans fuel queue o pool).2.1 := by
  intro fuel
  induction fuel with
  | zero =>
    intro queue o pool hq i
    exact absurd i.isLt (by simp [promoteOrphans])
  | succ fuel ih =>
    intro queue o pool hq
    cases queue with
    | nil =>
      intro i
      exact absurd i.isLt (by simp [promoteOrphans])
    | cons h rest =>
      rw [promoteOrphans_cons]
      have hqh : o.haveBlock h = true := hq h (List.mem_cons_self h rest)
      refine parentBeforeChild_append o (promoteStep h o pool).1 _ _ ?_ ?_ ?_
      · intro b hb
        rw [(promoteStep_facts h o pool b hb).2]
        exact hqh
      · refine ih _ _ _ ?_
        intro x hx
        rcases List.mem_append.mp hx with hx | hx
        · exact promoteStep_mono h o pool x
            (hq x (List.mem_cons_of_mem h hx))
        · rcases List.mem_map.mp hx with ⟨b, hb, hbx⟩
          rw [← hbx]
          exact (promoteStep_facts h o pool b hb).1
      · exact promoteStep_haveBlock_inv h o pool

/-- C2: orphan promotion is parent-before-child — whenever the promotion
queue starts from blocks the oracle already knows, every promoted block's
parent is either already known or an earlier entry of the promotion list —
and in the concrete scenario where B2 (parent B1) and B3 (parent B2) arrive
before B1, the arrival of B1 promotes both B2 and B3, in that order, empties
the orphan pool, and leaves the oracle's best tip at B3. -/
theorem orphan_chain_resolution (fuel : Nat) (queue : List Hash)
    (o : ChainOracle) (pool : OrphanPool)
    (hq : ∀ x ∈ queue, o.haveBlock x = true) :
    ParentBeforeChild o (promoteOrphans fuel queue o pool).2.1 ∧
    (c2Final.1.oracle.haveBlock 1 = true ∧
      c2Final.1.oracle.haveBlock 2 = true ∧
      c2Final.1.oracle.haveBlock 3 = true ∧
      c2Final.1.oracle.tipHash = 3 ∧
      c2Final.1.oracle.tipHeight = 3 ∧
      c2Final.2 = [.announce 1, .announce 2, .announce 3] ∧
      c2Final.1.orphans.entries = []) :=
  ⟨promoteOrphans_pbc fuel queue o pool hq, by decide⟩

/-- Witness for C2: promoting the orphan chain B2, B3 from an oracle that
already knows B1 yields a parent-before-child promotion list, and the
concrete three-block scenario resolves with tip B3. -/
theorem orphan_chain_resolution_witness :
    (∀ x ∈ [(1 : Hash)],
      ChainOracle.haveBlock ⟨[(1, 1), (0, 0)], 1, 1⟩ x = true) ∧
    (ParentBeforeChild ⟨[(1, 1), (0, 0)], 1, 1⟩
        (promoteOrphans 3 [1] ⟨[(1, 1), (0, 0)], 1, 1⟩
          ⟨[⟨c2B2, 1, 105⟩, ⟨c2B3, 1, 106⟩]⟩).2.1 ∧
      (c2Final.1.oracle.haveBlock 1 = true ∧
        c2Final.1.oracle.haveBlock 2 = true ∧
        c2Final.1.oracle.haveBlock 3 = true ∧
        c2Final.1.oracle.tipHash = 3 ∧
        c2Final.1.oracle.tipHeight = 3 ∧
        c2Final.2 = [.announce 1, .announce 2, .announce 3] ∧
        c2Final.1.orphans.entries = [])) :=
  ⟨by decide,
    orphan_chain_resolution 3 [1] ⟨[(1, 1), (0, 0)], 1, 1⟩
      ⟨[⟨c2B2, 1, 105⟩, ⟨c2B3, 1, 106⟩]⟩ (by decide)⟩

end Hdfd
